import Mathlib

/-
Verification of the clustering-evaluation core of Facebook_Clustering.py.

The numeric fields of the dataset are modelled as exact rationals (ℚ); a
DataFrame is a list of rows, each row a list of field values.  Row/column
indexing that the Python code performs with in-range indices is modelled with
List.getD (the default is never reached in any verified use).  Cluster labels
are natural numbers; a Python dict with insertion order is modelled as an
association list (List (label × value)) extended at the end on first insertion,
exactly as dict key order behaves.
-/

namespace FacebookClustering

/-- Inner loop of total_sum_of_squares: walks one row with its running column
index, accumulating (value - centroid[index])^2.  Direct transcription of
the `for index, value in enumerate(row)` loop body (`diff = value -
centroid[index]; diffsq = diff * diff; total += diffsq`). -/
def rowSS (centroid : List ℚ) : List ℚ → ℕ → ℚ
  | [], _ => 0
  | v :: rest, i =>
      (v - centroid.getD i 0) * (v - centroid.getD i 0) + rowSS centroid rest (i + 1)

/-- total_sum_of_squares(data, centroid): sum over every row of the row's
squared deviations from the centroid (source lines 25-40). -/
def total_sum_of_squares (data : List (List ℚ)) (centroid : List ℚ) : ℚ :=
  (data.map (fun row => rowSS centroid row 0)).sum

/-- find_centroid_df(df) = df.mean(): the column-wise mean.  The number of
columns of the frame is the (uniform) row width; for column j the mean is the
sum of the rows' j-th entries divided by the row count (source lines 43-45).
Meaningful on non-empty frames; the NaN behaviour of pandas mean on an empty
frame is modelled separately by find_centroid_df_pandas below. -/
def find_centroid_df (df : List (List ℚ)) : List ℚ :=
  (List.range (df.headD []).length).map
    (fun j => (df.map (fun r => r.getD j 0)).sum / (df.length : ℚ))

/-- Column mean with the pandas NaN convention made explicit: the mean of an
empty column is NaN, modelled as none; otherwise some (sum / count). -/
def colMeanNaN (col : List ℚ) : Option ℚ :=
  if col.length = 0 then none else some (col.sum / (col.length : ℚ))

/-- find_centroid_df as pandas actually behaves on a frame with ncols columns:
df.mean() returns normally for every frame, producing a NaN entry (modelled
as none) for each column when the frame has no rows.  No exception is raised. -/
def find_centroid_df_pandas (ncols : ℕ) (df : List (List ℚ)) : List (Option ℚ) :=
  (List.range ncols).map (fun j => colMeanNaN (df.map (fun r => r.getD j 0)))

/-- total_sum_of_squares_df(df, centroid=None): if no centroid is supplied,
compute one from the frame first, then delegate to total_sum_of_squares on
the frame's row matrix (source lines 18-23). -/
def total_sum_of_squares_df (df : List (List ℚ)) (centroid : Option (List ℚ)) : ℚ :=
  match centroid with
  | none => total_sum_of_squares df (find_centroid_df df)
  | some c => total_sum_of_squares df c

/-- One dict update step of get_cluster_indexes: append row index i to the
group of label a, creating the group (at the end, as dict insertion order
does) on first encounter.  Mirrors the `if assignment not in cluster_slices`
branch plus the append (source lines 53-57). -/
def appendAt : List (ℕ × List ℕ) → ℕ → ℕ → List (ℕ × List ℕ)
  | [], a, i => [(a, [i])]
  | (b, l) :: rest, a, i =>
      if b = a then (b, l ++ [i]) :: rest else (b, l) :: appendAt rest a i

/-- The enumerate loop of get_cluster_indexes: processes the remaining
assignments, carrying the current row index and the dict built so far. -/
def buildIndexes : List ℕ → ℕ → List (ℕ × List ℕ) → List (ℕ × List ℕ)
  | [], _, m => m
  | a :: rest, i, m => buildIndexes rest (i + 1) (appendAt m a i)

/-- get_cluster_indexes(assignments): groups row indices by assigned label in
one pass (source lines 50-59). -/
def get_cluster_indexes (assignments : List ℕ) : List (ℕ × List ℕ) :=
  buildIndexes assignments 0 []

/-- get_cluster_data(df, assignments): materializes each label's rows by
positional selection (df.iloc[v]); all indices produced by
get_cluster_indexes are in range in every use (source lines 61-66). -/
def get_cluster_data (df : List (List ℚ)) (assignments : List ℕ) :
    List (ℕ × List (List ℚ)) :=
  (get_cluster_indexes assignments).map (fun p => (p.1, p.2.map (fun i => df.getD i [])))

/-- get_clusters(df, assignments): list of (label, cluster centroid, cluster
rows) triples (source lines 68-75). -/
def get_clusters (df : List (List ℚ)) (assignments : List ℕ) :
    List (ℕ × List ℚ × List (List ℚ)) :=
  (get_cluster_data df assignments).map (fun p => (p.1, find_centroid_df p.2, p.2))

/-- The TWSS accumulation of the evaluation loop in main: for each cluster,
total_sum_of_squares_df(cluster_slice, centroid) with the cluster's own
centroid, summed (source lines 143-147). -/
def twss (df : List (List ℚ)) (assignments : List ℕ) : ℚ :=
  ((get_clusters df assignments).map
    (fun c => total_sum_of_squares_df c.2.2 (some c.2.1))).sum

/-- The global tss computed once in main: total_sum_of_squares_df(df) with no
centroid argument (source line 121). -/
def globalTSS (df : List (List ℚ)) : ℚ :=
  total_sum_of_squares_df df none

/-- A frame is rectangular when every row has the frame's column width. -/
def Rect (df : List (List ℚ)) : Prop :=
  ∀ r ∈ df, r.length = (df.headD []).length

/-- Positions (from start index i) at which label a occurs in the assignment
sequence, in input order: the reference list against which the stable-grouping
behaviour of get_cluster_indexes is checked. -/
def labelPositions (a : ℕ) : List ℕ → ℕ → List ℕ
  | [], _ => []
  | b :: rest, i =>
      if b = a then i :: labelPositions a rest (i + 1) else labelPositions a rest (i + 1)

/-- Sum of squared deviations of a single column's values from a value x. -/
def colSS (col : List ℚ) (x : ℚ) : ℚ :=
  (col.map (fun v => (v - x) * (v - x))).sum

/-- Sum of squares of a column's values. -/
def sqsum (col : List ℚ) : ℚ :=
  (col.map (fun v => v * v)).sum

/-- Modelled from the spec: the clustering model runners (the partitioning,
hierarchical and mixture algorithms) are third-party black boxes outside this
repository; per the Model Adapter contract they return one hard label per row
and whatever they return is trusted.  An adapter output is therefore modelled
as an arbitrary assignment sequence, whose cluster count is its number of
distinct labels. -/
def numClusters (assignments : List ℕ) : ℕ :=
  assignments.dedup.length

/-- The group stored for key a after one appendAt step on key a is the old
group (empty when the key was absent) with i appended. -/
theorem lookup_appendAt_self (m : List (ℕ × List ℕ)) (a i : ℕ) :
    (appendAt m a i).lookup a = some (((m.lookup a).getD []) ++ [i]) := by
  induction m with
  | nil => simp [appendAt, List.lookup]
  | cons p rest ih =>
      obtain ⟨b, l⟩ := p
      by_cases hba : b = a
      · subst hba
        simp [appendAt, List.lookup]
      · simp [appendAt, hba, List.lookup, ih, beq_eq_false_iff_ne.mpr (Ne.symm hba)]

/-- appendAt on key a leaves every other key's group unchanged. -/
theorem lookup_appendAt_ne (m : List (ℕ × List ℕ)) (a b i : ℕ) (hba : b ≠ a) :
    (appendAt m a i).lookup b = m.lookup b := by
  induction m with
  | nil => simp [appendAt, List.lookup, beq_eq_false_iff_ne.mpr hba]
  | cons p rest ih =>
      obtain ⟨c, l⟩ := p
      by_cases hca : c = a
      · subst hca
        simp [appendAt, List.lookup, beq_eq_false_iff_ne.mpr hba]
      · simp [appendAt, hca, List.lookup, ih]

/-- Loop invariant of get_cluster_indexes: after processing the remaining
assignments starting at row index i, the group of label a is its group in the
accumulated dict followed by the positions of a in the remainder, in order. -/
theorem lookup_buildIndexes (as : List ℕ) (i : ℕ) (m : List (ℕ × List ℕ)) (a : ℕ) :
    ((buildIndexes as i m).lookup a).getD [] =
      ((m.lookup a).getD []) ++ labelPositions a as i := by
  induction as generalizing i m with
  | nil => simp [buildIndexes, labelPositions]
  | cons b rest ih =>
      by_cases hba : b = a
      · subst hba
        simp [buildIndexes, labelPositions, ih, lookup_appendAt_self]
      · simp [buildIndexes, labelPositions, hba, ih, lookup_appendAt_ne m b a i (Ne.symm hba)]

/-- appendAt adds exactly one copy of the new row index to the multiset of all
grouped indices. -/
theorem flatten_appendAt_perm (m : List (ℕ × List ℕ)) (a i : ℕ) :
    ((appendAt m a i).map Prod.snd).flatten.Perm ((m.map Prod.snd).flatten ++ [i]) := by
  induction m with
  | nil => simp [appendAt]
  | cons p rest ih =>
      obtain ⟨b, l⟩ := p
      by_cases hba : b = a
      · subst hba
        have e : appendAt ((b, l) :: rest) b i = (b, l ++ [i]) :: rest := by
          simp [appendAt]
        rw [e]
        simp only [List.map_cons, List.flatten_cons, List.append_assoc]
        exact List.perm_append_comm.append_left l
      · have e : appendAt ((b, l) :: rest) a i = (b, l) :: appendAt rest a i := by
          simp [appendAt, hba]
        rw [e]
        simp only [List.map_cons, List.flatten_cons, List.append_assoc]
        exact ih.append_left l

/-- Loop invariant of get_cluster_indexes: the grouped indices, taken all
together, are a permutation of the accumulated dict's indices followed by the
block of row indices consumed by the loop. -/
theorem flatten_buildIndexes_perm (as : List ℕ) (i : ℕ) (m : List (ℕ × List ℕ)) :
    ((buildIndexes as i m).map Prod.snd).flatten.Perm
      ((m.map Prod.snd).flatten ++ List.range' i as.length) := by
  induction as generalizing i m with
  | nil => simp [buildIndexes]
  | cons a rest ih =>
      have h1 := ih (i + 1) (appendAt m a i)
      have h2 := (flatten_appendAt_perm m a i).append_right (List.range' (i + 1) rest.length)
      have h3 : buildIndexes (a :: rest) i m = buildIndexes rest (i + 1) (appendAt m a i) := rfl
      rw [h3]
      refine (h1.trans h2).trans ?_
      rw [List.append_assoc, List.singleton_append, ← List.range'_succ]
      simp

/-- appendAt preserves non-emptiness of every stored group. -/
theorem appendAt_snd_ne_nil (m : List (ℕ × List ℕ)) (a i : ℕ)
    (hm : ∀ p ∈ m, p.2 ≠ []) : ∀ p ∈ appendAt m a i, p.2 ≠ [] := by
  induction m with
  | nil =>
      intro p hp
      simp [appendAt] at hp
      subst hp
      simp
  | cons q rest ih =>
      obtain ⟨b, l⟩ := q
      intro p hp
      by_cases hba : b = a
      · subst hba
        have e : appendAt ((b, l) :: rest) b i = (b, l ++ [i]) :: rest := by
          simp [appendAt]
        rw [e] at hp
        rcases List.mem_cons.mp hp with h | h
        · subst h; simp
        · exact hm p (List.mem_cons_of_mem _ h)
      · have e : appendAt ((b, l) :: rest) a i = (b, l) :: appendAt rest a i := by
          simp [appendAt, hba]
        rw [e] at hp
        rcases List.mem_cons.mp hp with h | h
        · subst h; exact hm (b, l) (List.mem_cons_self _ _)
        · exact ih (fun q hq => hm q (List.mem_cons_of_mem _ hq)) p h

/-- The grouping loop preserves non-emptiness of every stored group. -/
theorem buildIndexes_snd_ne_nil (as : List ℕ) (i : ℕ) (m : List (ℕ × List ℕ))
    (hm : ∀ p ∈ m, p.2 ≠ []) : ∀ p ∈ buildIndexes as i m, p.2 ≠ [] := by
  induction as generalizing i m with
  | nil => simpa [buildIndexes] using hm
  | cons a rest ih => exact ih _ _ (appendAt_snd_ne_nil m a i hm)

/-- Grouping a constant assignment block starting from a singleton dict for
that label appends the whole block of row indices to the existing group. -/
theorem buildIndexes_replicate (n : ℕ) (a i : ℕ) (l : List ℕ) :
    buildIndexes (List.replicate n a) i [(a, l)] = [(a, l ++ List.range' i n)] := by
  induction n generalizing i l with
  | zero => simp [buildIndexes]
  | succ k ih =>
      have h1 : List.replicate (k + 1) a = a :: List.replicate k a := List.replicate_succ a k
      rw [h1]
      have h2 : buildIndexes (a :: List.replicate k a) i [(a, l)] =
          buildIndexes (List.replicate k a) (i + 1) (appendAt [(a, l)] a i) := rfl
      rw [h2]
      have h3 : appendAt [(a, l)] a i = [(a, l ++ [i])] := by simp [appendAt]
      rw [h3, ih, List.range'_succ]
      simp

/-- A constant assignment sequence of positive length produces exactly one
group holding every row index in order. -/
theorem get_cluster_indexes_replicate (n : ℕ) (a : ℕ) :
    get_cluster_indexes (List.replicate (n + 1) a) = [(a, List.range (n + 1))] := by
  have h1 : List.replicate (n + 1) a = a :: List.replicate n a := List.replicate_succ a n
  have h2 : get_cluster_indexes (List.replicate (n + 1) a) =
      buildIndexes (List.replicate n a) 1 (appendAt [] a 0) := by
    rw [get_cluster_indexes, h1]; rfl
  have h3 : appendAt ([] : List (ℕ × List ℕ)) a 0 = [(a, [0])] := rfl
  rw [h2, h3, buildIndexes_replicate, List.range_eq_range', List.range'_succ]
  simp

/-- Selecting every row of a frame by position, in order, returns the frame. -/
theorem map_getD_range (df : List (List ℚ)) :
    (List.range df.length).map (fun i => df.getD i []) = df := by
  induction df with
  | nil => rfl
  | cons r t ih =>
      simp only [List.length_cons, List.range_succ_eq_map, List.map_cons, List.map_map,
        Function.comp_def, List.getD_cons_zero, List.getD_cons_succ]
      rw [ih]

/-- C1: for a non-empty frame, the one-argument convenience form of
total_sum_of_squares_df computes the centroid from the frame and delegates,
so it coincides exactly with the manual two-step computation. -/
theorem tss_df_default_eq_manual (df : List (List ℚ)) (_h : df ≠ []) :
    total_sum_of_squares_df df none = total_sum_of_squares df (find_centroid_df df) := rfl

/-- Witness for C1 at the one-row frame [[1, 0]]. -/
theorem tss_df_default_eq_manual_witness :
    ([[1, 0]] : List (List ℚ)) ≠ [] ∧
    total_sum_of_squares_df [[1, 0]] none =
      total_sum_of_squares [[1, 0]] (find_centroid_df [[1, 0]]) :=
  ⟨by decide, tss_df_default_eq_manual [[1, 0]] (by decide)⟩

/-- C10: total_sum_of_squares of an empty row collection is 0 for every
centroid: the accumulator starts at 0 and the loop body never runs. -/
theorem tss_empty_data (centroid : List ℚ) :
    total_sum_of_squares [] centroid = 0 := rfl

/-- C8 (code evaluation at the failing input): pandas df.mean() on an empty
two-column frame returns normally with a NaN (none) entry per column; no
error is raised, contradicting the fail-loudly requirement. -/
theorem find_centroid_df_pandas_empty :
    find_centroid_df_pandas 2 [] = [none, none] := rfl

/-- C2: the index groups returned by get_cluster_indexes partition the row
index range: distinct groups are pairwise disjoint, and all grouped indices
together are exactly the indices 0..n-1, each once (no duplicates, no
omissions). -/
theorem get_cluster_indexes_is_partition (as : List ℕ) :
    ((get_cluster_indexes as).map Prod.snd).Pairwise List.Disjoint ∧
    ((get_cluster_indexes as).map Prod.snd).flatten.Perm (List.range as.length) := by
  have hperm : ((get_cluster_indexes as).map Prod.snd).flatten.Perm
      (List.range as.length) := by
    have h := flatten_buildIndexes_perm as 0 []
    simpa [get_cluster_indexes, List.range_eq_range'] using h
  refine ⟨?_, hperm⟩
  have hnd : ((get_cluster_indexes as).map Prod.snd).flatten.Nodup :=
    hperm.nodup_iff.mpr (List.nodup_range as.length)
  exact (List.nodup_flatten.mp hnd).2

/-- C5: get_cluster_indexes groups stably: the group of every label a lists
the positions of a in the assignment sequence in their original relative
order; in particular on [0,1,0,1,1] it returns exactly
[(0,[0,2]), (1,[1,3,4])]. -/
theorem get_cluster_indexes_stable_grouping :
    (∀ (as : List ℕ) (a : ℕ),
        ((get_cluster_indexes as).lookup a).getD [] = labelPositions a as 0) ∧
    get_cluster_indexes [0, 1, 0, 1, 1] = [(0, [0, 2]), (1, [1, 3, 4])] := by
  constructor
  · intro as a
    have h := lookup_buildIndexes as 0 [] a
    simpa [get_cluster_indexes, List.lookup] using h
  · decide

/-- C9: every group produced by get_cluster_indexes is non-empty, and hence
every cluster slice handed by get_clusters to the centroid computation is a
non-empty row collection. -/
theorem cluster_groups_nonempty :
    (∀ (as : List ℕ), ∀ p ∈ get_cluster_indexes as, p.2 ≠ []) ∧
    (∀ (df : List (List ℚ)) (as : List ℕ), ∀ c ∈ get_clusters df as, c.2.2 ≠ []) := by
  have h1 : ∀ (as : List ℕ), ∀ p ∈ get_cluster_indexes as, p.2 ≠ [] :=
    fun as => buildIndexes_snd_ne_nil as 0 [] (by simp)
  refine ⟨h1, ?_⟩
  intro df as c hc
  simp only [get_clusters, get_cluster_data, List.map_map, List.mem_map,
    Function.comp_def] at hc
  obtain ⟨p, hp, rfl⟩ := hc
  have h2 := h1 as p hp
  simpa using h2

/-- Witness for C9 at the one-element assignment sequence [0]. -/
theorem cluster_groups_nonempty_witness :
    ((0, [0]) : ℕ × List ℕ) ∈ get_cluster_indexes [0] ∧ ([0] : List ℕ) ≠ [] :=
  ⟨by decide, cluster_groups_nonempty.1 [0] (0, [0]) (by decide)⟩

/-- C3: when every row of a non-empty frame is assigned one single label, the
evaluation loop's TWSS equals the global TSS exactly, and when the global TSS
is non-zero the reported ratio twss/tss is exactly 1. -/
theorem single_cluster_twss_eq_tss (df : List (List ℚ)) (a : ℕ) (h : df ≠ []) :
    twss df (List.replicate df.length a) = globalTSS df ∧
    (globalTSS df ≠ 0 →
      twss df (List.replicate df.length a) / globalTSS df = 1) := by
  obtain ⟨r, t, rfl⟩ := List.exists_cons_of_ne_nil h
  have hidx : get_cluster_indexes (List.replicate (t.length + 1) a) =
      [(a, List.range (t.length + 1))] := get_cluster_indexes_replicate t.length a
  have hrows : (List.range (t.length + 1)).map (fun i => (r :: t).getD i []) = r :: t :=
    map_getD_range (r :: t)
  have hdata : get_cluster_data (r :: t) (List.replicate (t.length + 1) a) =
      [(a, r :: t)] := by
    rw [get_cluster_data, hidx]
    simp only [List.map_cons, List.map_nil]
    rw [hrows]
  have htwss : twss (r :: t) (List.replicate (t.length + 1) a) = globalTSS (r :: t) := by
    simp [twss, get_clusters, hdata, total_sum_of_squares_df, globalTSS]
  have hlen : (r :: t).length = t.length + 1 := rfl
  rw [hlen]
  exact ⟨htwss, fun h0 => by rw [htwss]; exact div_self h0⟩

/-- Witness for C3 at the frame [[1],[2]] with label 7. -/
theorem single_cluster_twss_eq_tss_witness :
    ([[1], [2]] : List (List ℚ)) ≠ [] ∧
    twss [[1], [2]] (List.replicate 2 7) = globalTSS [[1], [2]] :=
  ⟨by simp, (single_cluster_twss_eq_tss [[1], [2]] 7 (by simp)).1⟩

/-- C4 counterexample: on the 4-row scenario frame the global TSS computed by
the code is 2, not 1 as claimed, so the claimed conjunction (TSS = 1 and
ratio = 1) is false. -/
theorem scenario_claim_false :
    ¬ (globalTSS [[1, 0], [2, 0], [2, 1], [1, 1]] = 1 ∧
       twss [[1, 0], [2, 0], [2, 1], [1, 1]] [0, 0, 1, 1] /
         globalTSS [[1, 0], [2, 0], [2, 1], [1, 1]] = 1) := by
  have h : globalTSS [[1, 0], [2, 0], [2, 1], [1, 1]] = 2 := by
    norm_num [globalTSS, total_sum_of_squares_df, total_sum_of_squares, rowSS,
      find_centroid_df, List.range_succ]
  intro hc
  rw [h] at hc
  exact absurd hc.1 (by norm_num)

/-- C4 amended: on the frame [[1,0],[2,0],[2,1],[1,1]] the centroid is
[3/2, 1/2] and the global TSS is 2; splitting into the clusters with index
groups [0,1] and [2,3] yields cluster centroids [3/2,0] and [3/2,1], cluster
TSS 1/2 each, TWSS 1, and ratio TWSS/TSS = 1/2. -/
theorem scenario_values :
    find_centroid_df [[1, 0], [2, 0], [2, 1], [1, 1]] = [3 / 2, 1 / 2] ∧
    globalTSS [[1, 0], [2, 0], [2, 1], [1, 1]] = 2 ∧
    get_clusters [[1, 0], [2, 0], [2, 1], [1, 1]] [0, 0, 1, 1] =
      [(0, [3 / 2, 0], [[1, 0], [2, 0]]), (1, [3 / 2, 1], [[2, 1], [1, 1]])] ∧
    total_sum_of_squares_df [[1, 0], [2, 0]] (some [3 / 2, 0]) = 1 / 2 ∧
    total_sum_of_squares_df [[2, 1], [1, 1]] (some [3 / 2, 1]) = 1 / 2 ∧
    twss [[1, 0], [2, 0], [2, 1], [1, 1]] [0, 0, 1, 1] = 1 ∧
    twss [[1, 0], [2, 0], [2, 1], [1, 1]] [0, 0, 1, 1] /
      globalTSS [[1, 0], [2, 0], [2, 1], [1, 1]] = 1 / 2 := by
  have hidx : get_cluster_indexes [0, 0, 1, 1] = [(0, [0, 1]), (1, [2, 3])] := by decide
  have hcA : find_centroid_df [[1, 0], [2, 0]] = [3 / 2, 0] := by
    norm_num [find_centroid_df, List.range_succ]
  have hcB : find_centroid_df [[2, 1], [1, 1]] = [3 / 2, 1] := by
    norm_num [find_centroid_df, List.range_succ]
  have hclusters : get_clusters [[1, 0], [2, 0], [2, 1], [1, 1]] [0, 0, 1, 1] =
      [(0, [3 / 2, 0], [[1, 0], [2, 0]]), (1, [3 / 2, 1], [[2, 1], [1, 1]])] := by
    simp [get_clusters, get_cluster_data, hidx, hcA, hcB]
  have htssA : total_sum_of_squares_df [[1, 0], [2, 0]] (some [3 / 2, 0]) = 1 / 2 := by
    norm_num [total_sum_of_squares_df, total_sum_of_squares, rowSS]
  have htssB : total_sum_of_squares_df [[2, 1], [1, 1]] (some [3 / 2, 1]) = 1 / 2 := by
    norm_num [total_sum_of_squares_df, total_sum_of_squares, rowSS]
  have hglobal : globalTSS [[1, 0], [2, 0], [2, 1], [1, 1]] = 2 := by
    norm_num [globalTSS, total_sum_of_squares_df, total_sum_of_squares, rowSS,
      find_centroid_df, List.range_succ]
  have htwss : twss [[1, 0], [2, 0], [2, 1], [1, 1]] [0, 0, 1, 1] = 1 := by
    rw [twss, hclusters]
    simp only [List.map_cons, List.map_nil, List.sum_cons, List.sum_nil]
    rw [htssA, htssB]
    norm_num
  refine ⟨by norm_num [find_centroid_df, List.range_succ], hglobal, hclusters,
    htssA, htssB, htwss, ?_⟩
  rw [htwss, hglobal]

/-- Each row contribution to the TSS is a sum of squares, hence non-negative. -/
theorem rowSS_nonneg (c : List ℚ) (l : List ℚ) (i : ℕ) : 0 ≤ rowSS c l i := by
  induction l generalizing i with
  | nil => simp [rowSS]
  | cons v rest ih =>
      simp only [rowSS]
      exact add_nonneg (mul_self_nonneg _) (ih (i + 1))

/-- A list sum of non-negative rationals vanishes exactly when every entry does. -/
theorem sum_eq_zero_iff_of_nonneg (l : List ℚ) (h : ∀ x ∈ l, 0 ≤ x) :
    l.sum = 0 ↔ ∀ x ∈ l, x = 0 := by
  induction l with
  | nil => simp
  | cons a t ih =>
      have ha : 0 ≤ a := h a (List.mem_cons_self a t)
      have ht : ∀ x ∈ t, 0 ≤ x := fun x hx => h x (List.mem_cons_of_mem _ hx)
      have hts : 0 ≤ t.sum := List.sum_nonneg ht
      simp only [List.sum_cons, List.mem_cons]
      rw [add_eq_zero_iff_of_nonneg ha hts, ih ht]
      constructor
      · rintro ⟨h1, h2⟩ x hx
        rcases hx with rfl | hx
        · exact h1
        · exact h2 x hx
      · intro hx
        exact ⟨hx a (Or.inl rfl), fun x hxt => hx x (Or.inr hxt)⟩

/-- A row contribution vanishes exactly when every examined coordinate of the
row equals the corresponding centroid coordinate. -/
theorem rowSS_eq_zero_iff (c : List ℚ) (l : List ℚ) (i : ℕ) :
    rowSS c l i = 0 ↔ ∀ j, j < l.length → l.getD j 0 = c.getD (i + j) 0 := by
  induction l generalizing i with
  | nil => simp [rowSS]
  | cons v rest ih =>
      simp only [rowSS]
      have h1 : 0 ≤ (v - c.getD i 0) * (v - c.getD i 0) := mul_self_nonneg _
      have h2 : 0 ≤ rowSS c rest (i + 1) := rowSS_nonneg c rest (i + 1)
      rw [add_eq_zero_iff_of_nonneg h1 h2, mul_self_eq_zero, sub_eq_zero, ih (i + 1)]
      constructor
      · rintro ⟨hv, hrest⟩ j hj
        cases j with
        | zero => simpa using hv
        | succ k =>
            have hk : k < rest.length := by simpa using hj
            have hres := hrest k hk
            have e : i + (k + 1) = (i + 1) + k := by omega
            rw [e]
            simpa using hres
      · intro hall
        refine ⟨by simpa using hall 0 (by simp), fun k hk => ?_⟩
        have hres := hall (k + 1) (by simpa using hk)
        have e : i + (k + 1) = (i + 1) + k := by omega
        rw [e] at hres
        simpa using hres

/-- The TSS vanishes exactly when every row contribution vanishes. -/
theorem tss_eq_zero_iff_rows (df : List (List ℚ)) (c : List ℚ) :
    total_sum_of_squares df c = 0 ↔ ∀ r ∈ df, rowSS c r 0 = 0 := by
  rw [total_sum_of_squares, sum_eq_zero_iff_of_nonneg]
  · constructor
    · intro h r hr
      exact h _ (List.mem_map_of_mem _ hr)
    · intro h x hx
      obtain ⟨r, hr, rfl⟩ := List.mem_map.mp hx
      exact h r hr
  · intro x hx
    obtain ⟨r, hr, rfl⟩ := List.mem_map.mp hx
    exact rowSS_nonneg c r 0

/-- The centroid has one entry per column of the frame. -/
theorem length_find_centroid_df (df : List (List ℚ)) :
    (find_centroid_df df).length = (df.headD []).length := by
  simp [find_centroid_df]

/-- For a row of the centroid width, a vanishing row contribution is the same
as the row being the centroid. -/
theorem rowSS_zero_iff_eq (c r : List ℚ) (hlen : r.length = c.length) :
    rowSS c r 0 = 0 ↔ r = c := by
  rw [rowSS_eq_zero_iff]
  constructor
  · intro h
    apply List.ext_getElem hlen
    intro j hj1 hj2
    have hgd := h j hj1
    simpa [List.getD_eq_getElem?_getD, List.getElem?_eq_getElem, hj1, hj2] using hgd
  · rintro rfl j hj
    simp

/-- The centroid of a frame whose rows are all equal is that common row. -/
theorem find_centroid_df_const (r : List ℚ) (t : List (List ℚ))
    (hall : ∀ s ∈ r :: t, s = r) : find_centroid_df (r :: t) = r := by
  have hn : ((r :: t).length : ℚ) ≠ 0 := by
    have hpos : (0 : ℚ) < ((r :: t).length : ℚ) := by
      exact_mod_cast Nat.succ_pos t.length
    exact ne_of_gt hpos
  apply List.ext_getElem (by simp [length_find_centroid_df])
  intro j hj1 hj2
  have hmap : (r :: t).map (fun s => s.getD j 0) =
      List.replicate (r :: t).length (r.getD j 0) := by
    rw [List.eq_replicate_iff]
    refine ⟨by simp, ?_⟩
    intro x hx
    obtain ⟨s, hs, rfl⟩ := List.mem_map.mp hx
    rw [hall s hs]
  have hlen2 : (find_centroid_df (r :: t)).length = r.length := by
    simp [length_find_centroid_df]
  have hval : (find_centroid_df (r :: t))[j] =
      ((r :: t).map (fun s => s.getD j 0)).sum / ((r :: t).length : ℚ) := by
    simp [find_centroid_df]
  rw [hval, hmap, List.sum_replicate, nsmul_eq_mul, mul_div_cancel_left₀ _ hn]
  have hjr : j < r.length := by rw [← hlen2]; exact hj1
  exact List.getD_eq_getElem r 0 hjr

/-- C6: for a non-empty rectangular frame, the TSS against its own centroid is
non-negative, and it is zero exactly when every row equals the centroid,
equivalently exactly when all rows are identical. -/
theorem tss_nonneg_and_zero_iff (df : List (List ℚ)) (h : df ≠ []) (hrect : Rect df) :
    0 ≤ total_sum_of_squares df (find_centroid_df df) ∧
    (total_sum_of_squares df (find_centroid_df df) = 0 ↔
      ∀ r ∈ df, r = find_centroid_df df) ∧
    (total_sum_of_squares df (find_centroid_df df) = 0 ↔
      ∀ r ∈ df, ∀ s ∈ df, r = s) := by
  have hnonneg : 0 ≤ total_sum_of_squares df (find_centroid_df df) := by
    rw [total_sum_of_squares]
    apply List.sum_nonneg
    intro x hx
    obtain ⟨r, hr, rfl⟩ := List.mem_map.mp hx
    exact rowSS_nonneg _ r 0
  have hiff1 : total_sum_of_squares df (find_centroid_df df) = 0 ↔
      ∀ r ∈ df, r = find_centroid_df df := by
    rw [tss_eq_zero_iff_rows]
    constructor
    · intro hz r hr
      exact (rowSS_zero_iff_eq _ r
        (by rw [hrect r hr, length_find_centroid_df])).mp (hz r hr)
    · intro hz r hr
      exact (rowSS_zero_iff_eq _ r
        (by rw [hrect r hr, length_find_centroid_df])).mpr (hz r hr)
  refine ⟨hnonneg, hiff1, ?_⟩
  rw [hiff1]
  obtain ⟨r0, t, rfl⟩ := List.exists_cons_of_ne_nil h
  constructor
  · intro hz r hr s hs
    rw [hz r hr, hz s hs]
  · intro hall x hx
    have hallr : ∀ s ∈ r0 :: t, s = r0 := fun s hs => hall s hs r0 (List.mem_cons_self _ _)
    rw [hallr x hx, find_centroid_df_const r0 t hallr]

/-- Witness for C6 at the frame [[1],[2]]. -/
theorem tss_nonneg_and_zero_iff_witness :
    ([[1], [2]] : List (List ℚ)) ≠ [] ∧ Rect [[1], [2]] ∧
    0 ≤ total_sum_of_squares [[1], [2]] (find_centroid_df [[1], [2]]) := by
  have hne : ([[1], [2]] : List (List ℚ)) ≠ [] := by simp
  have hrect : Rect [[1], [2]] := by
    intro r hr
    rcases List.mem_cons.mp hr with rfl | hr2
    · rfl
    · rcases List.mem_cons.mp hr2 with rfl | h3
      · rfl
      · exact absurd h3 (List.not_mem_nil r)
  exact ⟨hne, hrect, (tss_nonneg_and_zero_iff [[1], [2]] hne hrect).1⟩

/-- Quadratic expansion of the one-column sum of squared deviations. -/
theorem colSS_expand (col : List ℚ) (x : ℚ) :
    colSS col x = sqsum col - 2 * x * col.sum + (col.length : ℚ) * x * x := by
  induction col with
  | nil => simp [colSS, sqsum]
  | cons v t ih =>
      simp only [colSS, sqsum, List.map_cons, List.sum_cons, List.length_cons] at ih ⊢
      rw [ih]
      push_cast
      ring

/-- The column mean minimizes the one-column sum of squared deviations. -/
theorem colSS_mean_le (col : List ℚ) (x : ℚ) :
    colSS col (col.sum / (col.length : ℚ)) ≤ colSS col x := by
  rcases eq_or_ne col.length 0 with h0 | h0
  · rw [List.length_eq_zero.mp h0]
    simp [colSS]
  · have hn : ((col.length : ℚ)) ≠ 0 := Nat.cast_ne_zero.mpr h0
    have key : colSS col x - colSS col (col.sum / (col.length : ℚ)) =
        (col.length : ℚ) * ((x - col.sum / (col.length : ℚ)) *
          (x - col.sum / (col.length : ℚ))) := by
      rw [colSS_expand, colSS_expand]
      field_simp
      ring
    have hnn : 0 ≤ (col.length : ℚ) * ((x - col.sum / (col.length : ℚ)) *
        (x - col.sum / (col.length : ℚ))) :=
      mul_nonneg (Nat.cast_nonneg _) (mul_self_nonneg _)
    linarith [key, hnn]

/-- A row contribution as an explicit sum over its column indices. -/
theorem rowSS_eq_sum_range (c r : List ℚ) (i : ℕ) :
    rowSS c r i = ((List.range r.length).map
      (fun j => (r.getD j 0 - c.getD (i + j) 0) *
        (r.getD j 0 - c.getD (i + j) 0))).sum := by
  induction r generalizing i with
  | nil => simp [rowSS]
  | cons v t ih =>
      simp only [rowSS, List.length_cons, List.range_succ_eq_map, List.map_cons,
        List.sum_cons, List.map_map, Function.comp_def, List.getD_cons_zero,
        List.getD_cons_succ, Nat.add_zero]
      congr 1
      rw [ih (i + 1)]
      apply congrArg List.sum
      apply List.map_congr_left
      intro j _
      have e : (i + 1) + j = i + (j + 1) := by omega
      rw [e]

/-- Summing a pointwise sum of two functions over a list splits. -/
theorem sum_map_add_distrib (l : List ℕ) (f g : ℕ → ℚ) :
    (l.map (fun x => f x + g x)).sum = (l.map f).sum + (l.map g).sum := by
  induction l with
  | nil => simp
  | cons a t ih =>
      simp only [List.map_cons, List.sum_cons, ih]
      ring

/-- Exchanging a sum over rows of sums over column indices. -/
theorem sum_exchange (S : List (List ℚ)) (w : ℕ) (f : List ℚ → ℕ → ℚ) :
    (S.map (fun r => ((List.range w).map (f r)).sum)).sum =
      ((List.range w).map (fun j => (S.map (fun r => f r j)).sum)).sum := by
  induction S with
  | nil => simp
  | cons r t ih =>
      simp only [List.map_cons, List.sum_cons, ih]
      rw [← sum_map_add_distrib (List.range w) (f r)
        (fun j => (t.map (fun r' => f r' j)).sum)]

/-- For a rectangular row collection, the TSS against any centroid decomposes
into a sum of per-column sums of squared deviations. -/
theorem tss_eq_sum_colSS (S : List (List ℚ)) (c : List ℚ) (w : ℕ)
    (hS : ∀ r ∈ S, r.length = w) :
    total_sum_of_squares S c =
      ((List.range w).map
        (fun j => colSS (S.map (fun r => r.getD j 0)) (c.getD j 0))).sum := by
  rw [total_sum_of_squares]
  have hrow : ∀ r ∈ S, rowSS c r 0 = ((List.range w).map
      (fun j => (r.getD j 0 - c.getD j 0) * (r.getD j 0 - c.getD j 0))).sum := by
    intro r hr
    rw [rowSS_eq_sum_range, hS r hr]
    simp
  rw [List.map_congr_left hrow,
    sum_exchange S w (fun r j => (r.getD j 0 - c.getD j 0) * (r.getD j 0 - c.getD j 0))]
  simp [colSS, List.map_map, Function.comp_def]

/-- Entry j of the centroid equals the mean of column j. -/
theorem find_centroid_df_getD (S : List (List ℚ)) (j : ℕ)
    (hj : j < (S.headD []).length) :
    (find_centroid_df S).getD j 0 =
      (S.map (fun r => r.getD j 0)).sum / (S.length : ℚ) := by
  rw [find_centroid_df, List.getD_eq_getElem _ _ (by simpa using hj)]
  simp

/-- Centroid optimality: for a rectangular row collection, the TSS against its
own centroid is at most the TSS against any other centroid vector. -/
theorem tss_centroid_le (S : List (List ℚ)) (c : List ℚ) (w : ℕ)
    (hS : ∀ r ∈ S, r.length = w) :
    total_sum_of_squares S (find_centroid_df S) ≤ total_sum_of_squares S c := by
  rcases S with _ | ⟨r0, t⟩
  · simp [total_sum_of_squares]
  · have hhead : r0.length = w := hS r0 (List.mem_cons_self r0 t)
    rw [tss_eq_sum_colSS _ _ w hS, tss_eq_sum_colSS _ _ w hS]
    apply List.sum_le_sum
    intro j hj
    have hjw : j < w := List.mem_range.mp hj
    rw [find_centroid_df_getD (r0 :: t) j (by simpa [hhead] using hjw)]
    have hlen : (((r0 :: t).map (fun r => r.getD j 0)).length : ℚ) =
        ((r0 :: t).length : ℚ) := by
      rw [List.length_map]
    rw [← hlen]
    exact colSS_mean_le _ _

/-- The sum of per-cluster sums equals the sum over the flattened collection
of all cluster rows. -/
theorem sum_map_flatten (L : List (List (List ℚ))) (f : List ℚ → ℚ) :
    (L.map (fun S => (S.map f).sum)).sum = (L.flatten.map f).sum := by
  induction L with
  | nil => simp
  | cons S t ih => simp [ih]

/-- The TWSS computed by the evaluation loop never exceeds the global TSS, for
every assignment sequence aligned row-for-row with a rectangular frame. -/
theorem twss_le_globalTSS (df : List (List ℚ)) (as : List ℕ)
    (hrect : Rect df) (hlen : as.length = df.length) :
    twss df as ≤ globalTSS df := by
  have hperm0 : ((get_cluster_indexes as).map Prod.snd).flatten.Perm
      (List.range as.length) := by
    have h := flatten_buildIndexes_perm as 0 []
    simpa [get_cluster_indexes, List.range_eq_range'] using h
  have htwss : twss df as = ((get_cluster_data df as).map
      (fun p => total_sum_of_squares p.2 (find_centroid_df p.2))).sum := by
    simp [twss, get_clusters, List.map_map, Function.comp_def, total_sum_of_squares_df]
  have hrows : ∀ p ∈ get_cluster_data df as, ∀ r ∈ p.2,
      r.length = (df.headD []).length := by
    intro p hp r hr
    obtain ⟨q, hq, rfl⟩ := List.mem_map.mp hp
    obtain ⟨i, hi, rfl⟩ := List.mem_map.mp hr
    have hiflat : i ∈ ((get_cluster_indexes as).map Prod.snd).flatten :=
      List.mem_flatten.mpr ⟨q.2, List.mem_map_of_mem Prod.snd hq, hi⟩
    have hilt : i < df.length := by
      rw [← hlen]
      exact List.mem_range.mp (hperm0.mem_iff.mp hiflat)
    have hmem : df.getD i [] ∈ df := by
      rw [List.getD_eq_getElem df [] hilt]
      exact List.getElem_mem hilt
    exact hrect _ hmem
  have hstep : ((get_cluster_data df as).map
      (fun p => total_sum_of_squares p.2 (find_centroid_df p.2))).sum ≤
      ((get_cluster_data df as).map
        (fun p => total_sum_of_squares p.2 (find_centroid_df df))).sum :=
    List.sum_le_sum (fun p hp =>
      tss_centroid_le p.2 (find_centroid_df df) (df.headD []).length (hrows p hp))
  have hsplit : ((get_cluster_data df as).map
      (fun p => total_sum_of_squares p.2 (find_centroid_df df))).sum =
      total_sum_of_squares df (find_centroid_df df) := by
    have h1 : (get_cluster_data df as).map
        (fun p => total_sum_of_squares p.2 (find_centroid_df df)) =
        ((get_cluster_data df as).map Prod.snd).map
          (fun S => (S.map (fun r => rowSS (find_centroid_df df) r 0)).sum) := by
      simp [total_sum_of_squares, List.map_map, Function.comp_def]
    rw [h1, sum_map_flatten]
    have h2 : (get_cluster_data df as).map Prod.snd =
        ((get_cluster_indexes as).map Prod.snd).map
          (List.map (fun i => df.getD i [])) := by
      simp [get_cluster_data, List.map_map, Function.comp_def]
    rw [h2, ← List.map_flatten]
    have h3 : ((((get_cluster_indexes as).map Prod.snd).flatten).map
        (fun i => df.getD i [])).Perm df := by
      have h4 := hperm0.map (fun i => df.getD i [])
      rw [hlen, map_getD_range df] at h4
      exact h4
    have h5 := (h3.map (fun r => rowSS (find_centroid_df df) r 0)).sum_eq
    rw [total_sum_of_squares]
    exact h5
  calc twss df as
      = ((get_cluster_data df as).map
          (fun p => total_sum_of_squares p.2 (find_centroid_df p.2))).sum := htwss
    _ ≤ ((get_cluster_data df as).map
          (fun p => total_sum_of_squares p.2 (find_centroid_df df))).sum := hstep
    _ = total_sum_of_squares df (find_centroid_df df) := hsplit
    _ = globalTSS df := rfl

/-- C7 amended: for every hard assignment sequence returned by a black-box
model run on a rectangular frame, the TWSS is at most the global TSS, so the
reported ratio TWSS/TSS is at most 1; monotonicity in the cluster count does
not hold for arbitrary assignments. -/
theorem twss_ratio_at_most_one (df : List (List ℚ)) (as : List ℕ)
    (hrect : Rect df) (hlen : as.length = df.length) :
    twss df as ≤ globalTSS df ∧
    (0 < globalTSS df → twss df as / globalTSS df ≤ 1) := by
  have h := twss_le_globalTSS df as hrect hlen
  exact ⟨h, fun hpos => (div_le_one hpos).mpr h⟩

/-- Witness for C7 amended at the frame [[0],[4]] with assignments [0,1]. -/
theorem twss_ratio_at_most_one_witness :
    Rect [[0], [4]] ∧ ([0, 1] : List ℕ).length = ([[0], [4]] : List (List ℚ)).length ∧
    twss [[0], [4]] [0, 1] ≤ globalTSS [[0], [4]] := by
  have hrect : Rect [[0], [4]] := by
    intro r hr
    rcases List.mem_cons.mp hr with rfl | hr2
    · rfl
    · rcases List.mem_cons.mp hr2 with rfl | h3
      · rfl
      · exact absurd h3 (List.not_mem_nil r)
  have hl : ([0, 1] : List ℕ).length = ([[0], [4]] : List (List ℚ)).length := rfl
  exact ⟨hrect, hl, (twss_ratio_at_most_one [[0], [4]] [0, 1] hrect hl).1⟩

/-- C7 counterexample: with the model runners treated as black boxes returning
arbitrary hard assignments, the reported ratio is not monotonically
non-increasing in the cluster count: on the frame [[0],[0],[10],[10]] a
2-label assignment gives ratio 0 while a 3-label assignment gives ratio 1/2,
which is strictly larger. -/
theorem ratio_not_monotone_in_k :
    numClusters [0, 0, 1, 1] = 2 ∧ numClusters [0, 1, 0, 2] = 3 ∧
    twss [[0], [0], [10], [10]] [0, 0, 1, 1] / globalTSS [[0], [0], [10], [10]] = 0 ∧
    twss [[0], [0], [10], [10]] [0, 1, 0, 2] / globalTSS [[0], [0], [10], [10]] = 1 / 2 ∧
    ¬ (twss [[0], [0], [10], [10]] [0, 1, 0, 2] / globalTSS [[0], [0], [10], [10]] ≤
        twss [[0], [0], [10], [10]] [0, 0, 1, 1] / globalTSS [[0], [0], [10], [10]]) := by
  have hidx2 : get_cluster_indexes [0, 0, 1, 1] = [(0, [0, 1]), (1, [2, 3])] := by decide
  have hidx3 : get_cluster_indexes [0, 1, 0, 2] =
      [(0, [0, 2]), (1, [1]), (2, [3])] := by decide
  have hglobal : globalTSS [[0], [0], [10], [10]] = 100 := by
    norm_num [globalTSS, total_sum_of_squares_df, total_sum_of_squares, rowSS,
      find_centroid_df, List.range_succ]
  have htwss2 : twss [[0], [0], [10], [10]] [0, 0, 1, 1] = 0 := by
    rw [twss, get_clusters, get_cluster_data, hidx2]
    norm_num [total_sum_of_squares_df, total_sum_of_squares, rowSS,
      find_centroid_df, List.range_succ]
  have htwss3 : twss [[0], [0], [10], [10]] [0, 1, 0, 2] = 50 := by
    rw [twss, get_clusters, get_cluster_data, hidx3]
    norm_num [total_sum_of_squares_df, total_sum_of_squares, rowSS,
      find_centroid_df, List.range_succ]
  refine ⟨by decide, by decide, ?_, ?_, ?_⟩
  · rw [htwss2, hglobal]
    norm_num
  · rw [htwss3, hglobal]
    norm_num
  · rw [htwss2, htwss3, hglobal]
    norm_num

end FacebookClustering
